import Mathlib

/-!
Verification of the kafkacat core (src/kafkacat.c) against its
natural-language specification.

Shallow embedding conventions:
- Bytes are `Nat` values (the C code compares `int` values; the `& 0xff`
  masks appear where the source has them, as `% 256`).
- The producer input stream is a `List Nat` of bytes; `getdelim` framing,
  delimiter stripping, key extraction and the ownership (copy vs free)
  decision are embedded from `producer_run` (kafkacat.c lines 247-327).
- The consume callback `consume_cb` (lines 356-407) is embedded as a step
  function over an explicit state; the consume loop is a `List.foldl`
  over the sequence of messages delivered by the shared queue.  A fatal
  (non-EOF) consume error terminates the process and is outside the
  state model, so the event type carries only regular messages and
  partition-EOF markers.
- The send loop `produce` (lines 121-154) is embedded as structural
  recursion over the finite observed prefix of per-attempt immediate
  results; `none` models "still retrying".
-/

namespace Kafkacat

/-! ## Record framing: getdelim chunking (producer_run, lines 249-250) -/

/-- One `getdelim` read per chunk: the input splits into chunks, each chunk
running up to and including the next occurrence of the delimiter byte `d`;
a final chunk without a delimiter is returned as-is at end of input. -/
def getdelimChunks (d : Nat) : List Nat → List (List Nat)
  | [] => []
  | x :: xs =>
    if x = d then [x] :: getdelimChunks d xs
    else
      match getdelimChunks d xs with
      | [] => [[x]]
      | c :: cs => (x :: c) :: cs

/-- Delimiter stripping (lines 260-262): `if (buf[len-1] == conf.delim) len--`. -/
def stripDelim (d : Nat) (c : List Nat) : List Nat :=
  if c.getLast? = some d then c.dropLast else c

/-- The delimiter bytes removed from a chunk by `stripDelim`: `[d]` when the
chunk ended in the delimiter, `[]` otherwise (a final unterminated chunk). -/
def chunkDelim (d : Nat) (c : List Nat) : List Nat :=
  if c.getLast? = some d then [d] else []

/-! ## Key extraction and ownership decision (producer_run, lines 251-322) -/

/-- Producer configuration bits consumed by the per-record path:
the record delimiter (`conf.delim`), whether `CONF_F_KEY_DELIM` is set and
the key delimiter byte (`conf.key_delim`), the `CONF_F_NULL` flag (`-Z`),
and the `CONF_F_TEE` flag (`-T`). -/
structure ProdConf where
  delim : Nat
  keyDelimOn : Bool
  keyDelim : Nat
  nullFlag : Bool
  tee : Bool

/-- The arguments of the `rd_kafka_produce` call made for one record:
value bytes (`none` models a NULL `buf` pointer), key bytes (`none` models
a NULL `key` pointer), and the two message flags `RD_KAFKA_MSG_F_COPY` and
`RD_KAFKA_MSG_F_FREE`. -/
structure OutMsg where
  value : Option (List Nat)
  key : Option (List Nat)
  copyFlag : Bool
  freeFlag : Bool
deriving DecidableEq

/-- `memchr` based key split (lines 269-274): locate the first occurrence
of byte `k`; on success return the bytes strictly before it and the bytes
strictly after it. -/
def splitFirst (k : Nat) : List Nat → Option (List Nat × List Nat)
  | [] => none
  | x :: xs =>
    if x = k then some ([], xs)
    else
      match splitFirst k xs with
      | none => none
      | some (a, b) => some (x :: a, b)

/-- Per-record processing after delimiter stripping (lines 264-307): skip a
zero-length record; otherwise extract the key when `CONF_F_KEY_DELIM` is set
and the key delimiter occurs in the record (which forces
`RD_KAFKA_MSG_F_COPY`, and under `CONF_F_NULL` turns a zero-length half
into a NULL pointer); then decide ownership: records of more than 1024
bytes with tee off and no copy flag yet are handed to rdkafka with
`RD_KAFKA_MSG_F_FREE`, all others are sent with `RD_KAFKA_MSG_F_COPY`. -/
def sendRecord (cf : ProdConf) (r : List Nat) : Option OutMsg :=
  if r = [] then none
  else
    match (if cf.keyDelimOn then splitFirst cf.keyDelim r else none) with
    | some (a, b) =>
        some { value := if cf.nullFlag ∧ b = [] then none else some b
               key := if cf.nullFlag ∧ a = [] then none else some a
               copyFlag := true
               freeFlag := false }
    | none =>
        if 1024 < r.length ∧ cf.tee = false then
          some { value := some r, key := none, copyFlag := false, freeFlag := true }
        else
          some { value := some r, key := none, copyFlag := true, freeFlag := false }

/-- One full loop iteration on a raw `getdelim` chunk (lines 249-310):
skip an empty read, strip the trailing delimiter, then `sendRecord`. -/
def processRecord (cf : ProdConf) (chunk : List Nat) : Option OutMsg :=
  if chunk = [] then none else sendRecord cf (stripDelim cf.delim chunk)

/-- The record was submitted with `RD_KAFKA_MSG_F_COPY` and without
`RD_KAFKA_MSG_F_FREE` (the copy path). -/
def onCopyPath : Option OutMsg → Bool
  | some m => m.copyFlag && !m.freeFlag
  | none => false

/-- The record was submitted with `RD_KAFKA_MSG_F_FREE` and without
`RD_KAFKA_MSG_F_COPY` (the ownership-transfer path). -/
def onTransferPath : Option OutMsg → Bool
  | some m => m.freeFlag && !m.copyFlag
  | none => false

/-- Whether the key split was applied to record `r` (lines 268-270):
`CONF_F_KEY_DELIM` is set and the key delimiter occurs in `r`. -/
def keySplitApplied (cf : ProdConf) (r : List Nat) : Bool :=
  cf.keyDelimOn && (splitFirst cf.keyDelim r).isSome

/-- Read-buffer handover after the produce call (lines 317-322): when the
message carried `RD_KAFKA_MSG_F_FREE`, `sbuf` is reset to NULL (`none`) so
the next `getdelim` allocates a fresh buffer; otherwise the buffer is
reused. -/
def bufAfterSend (sbuf : Option (List Nat)) : Option OutMsg → Option (List Nat)
  | some m => if m.freeFlag then none else sbuf
  | none => sbuf

/-! ## The send loop (produce, lines 121-154) -/

/-- Immediate result of one `rd_kafka_produce` attempt: accepted
(returned not -1), queue full (`RD_KAFKA_RESP_ERR__QUEUE_FULL`), or any
other error. -/
inductive SendAttempt where
  | accepted
  | queueFull
  | fatalErr
deriving DecidableEq

/-- How the `produce` function ends: normal return after the broker client
accepted the record, fatal exit because the run flag was cleared during a
retry, or fatal exit on a non-queue-full produce error. -/
inductive SendOutcome where
  | sent
  | terminatedDuringRetry
  | fatalProduceError
deriving DecidableEq

/-- The retry loop of `produce` (lines 125-150), driven by the observed
per-iteration environment: each list entry is the run flag at the top of
the iteration paired with the immediate result of the attempt.  The `Nat`
accumulator counts queue-full retries (each one increments `tx_err_q` and
performs one bounded 5 ms `rd_kafka_poll` drain).  `none` means the
observed environment ran out while the loop was still retrying. -/
def produceLoop : List (Bool × SendAttempt) → Nat → Option (SendOutcome × Nat)
  | [], _ => none
  | (run, a) :: rest, retries =>
    if run = false then some (SendOutcome.terminatedDuringRetry, retries)
    else
      match a with
      | SendAttempt.accepted => some (SendOutcome.sent, retries)
      | SendAttempt.fatalErr => some (SendOutcome.fatalProduceError, retries)
      | SendAttempt.queueFull => produceLoop rest (retries + 1)

/-! ## Batch-file produce mode (producer_run lines 232-245, produce_file
lines 161-196) -/

/-- Outcome of `produce_file` for one listed file: a non-empty file read
and produced (returns its size), an empty file skipped (returns 0), or an
open/stat/mmap failure (returns -1). -/
inductive FileOutcome where
  | readOk (size : Nat)
  | emptyFile
  | readFail
deriving DecidableEq

/-- The return value of `produce_file` (lines 161-196). -/
def produce_file_ret : FileOutcome → Int
  | FileOutcome.readOk n => n
  | FileOutcome.emptyFile => 0
  | FileOutcome.readFail => -1

/-- The `good` counter of the batch-file loop (lines 234-239): number of
files whose `produce_file` did not return -1. -/
def goodCount (files : List FileOutcome) : Nat :=
  (files.filter (fun f => produce_file_ret f != -1)).length

/-- Exit code of a batch-file producer run (lines 241-245 and 347-348):
`exitcode` is set to 1 when no file succeeded (`!good`); a partial failure
is only logged; finally any queue or delivery-report error forces 1. -/
def producerExitcode (files : List FileOutcome) (txErrQ txErrDr : Nat) : Nat :=
  let ec := if goodCount files = 0 then 1 else 0
  if txErrQ ≠ 0 ∨ txErrDr ≠ 0 then 1 else ec

/-! ## Delimiter parser (parse_delim, lines 808-819) -/

/-- Value of one hexadecimal digit character, if it is one. -/
def hexDigitVal (c : Char) : Option Nat :=
  if c.toNat ≥ 48 ∧ c.toNat ≤ 57 then some (c.toNat - 48)
  else if c.toNat ≥ 97 ∧ c.toNat ≤ 102 then some (c.toNat - 87)
  else if c.toNat ≥ 65 ∧ c.toNat ≤ 70 then some (c.toNat - 55)
  else none

/-- Accumulating base-16 `strtoul` over the longest leading run of hex
digits (the delimiter specifications this program feeds it are bare hex
digit runs, so the leading-whitespace/sign/`0x` acceptance of the C
library function never triggers and is not modelled). -/
def strtoulHexAux : List Char → Nat → Nat
  | [], acc => acc
  | c :: cs, acc =>
    match hexDigitVal c with
    | some v => strtoulHexAux cs (acc * 16 + v)
    | none => acc

/-- `strtoul(s, NULL, 16)` on a delimiter specification tail. -/
def strtoulHex (s : List Char) : Nat := strtoulHexAux s 0

/-- parse_delim (lines 808-819): `\xNN..` gives the parsed hex value masked
to one byte; `\n` gives 0x0A; `\t` gives 0x09; otherwise the first byte of
the string is used verbatim (for the empty string this reads the NUL
terminator, i.e. byte 0).  The function always returns a byte value; it
has no failure result. -/
def parse_delim (s : List Char) : Nat :=
  if s.take 2 = ['\\', 'x'] then strtoulHex (s.drop 2) % 256
  else if s = ['\\', 'n'] then 10
  else if s = ['\\', 't'] then 9
  else (s.headD (Char.ofNat 0)).toNat % 256

/-! ## Partition EOF coordinator (consume_cb, lines 362-390) -/

/-- Coordinator state: the `part_eof` array (one flag per partition,
allocated with `calloc` over the partition count) and the global
`part_eof_cnt` counter. -/
structure EofState where
  eof : List Bool
  cnt : Nat
deriving DecidableEq

/-- Initial coordinator state for `n` partitions (consumer_run, line 469):
all flags zeroed, count 0. -/
def eofInit (n : Nat) : EofState :=
  { eof := List.replicate n false, cnt := 0 }

/-- The coordinator update for one partition-EOF notification
(lines 372-380): a first notification for partition `p` marks it observed
and increments the count; a repeated notification is a no-op. -/
def eofStep (s : EofState) (p : Nat) : EofState :=
  if s.eof.getD p false then s
  else { eof := s.eof.set p true, cnt := s.cnt + 1 }

/-- The coordinator run over a delivered notification sequence. -/
def eofRunFrom (s : EofState) (ps : List Nat) : EofState := ps.foldl eofStep s

/-- Coordinator run from the initial state for `n` partitions. -/
def eofRun (n : Nat) (ps : List Nat) : EofState := eofRunFrom (eofInit n) ps

/-- The set of partitions the coordinator has marked observed: the indices
of the `part_eof` array holding a set flag. -/
def observedSet (s : EofState) : Finset Nat :=
  (Finset.range s.eof.length).filter (fun q => s.eof.getD q false = true)

/-- `RD_KAFKA_PARTITION_UA`: the "unassigned / any partition" sentinel. -/
def RD_KAFKA_PARTITION_UA : Int := -1

/-- The EOF threshold set up by consumer_run (lines 472-475): 1 when an
explicit partition was requested (`-p`), else the topic's partition
count. -/
def eofThreshold (confPartition : Int) (partitionCnt : Nat) : Nat :=
  if confPartition ≠ RD_KAFKA_PARTITION_UA then 1 else partitionCnt

/-! ## Consume callback and loop (consume_cb lines 356-407,
consumer_run lines 512-519) -/

/-- Configuration bits read by `consume_cb`: the exit-at-EOF flag (`-e`),
the message-count limit `conf.msg_cnt` (0 when `-c` was not given), and
the EOF threshold `part_eof_thres`. -/
structure CConf where
  exitEof : Bool
  msgCnt : Nat
  thres : Nat

/-- One event delivered by the shared consume queue: a regular message or
a partition-EOF marker, each carrying its partition and offset. -/
inductive KEvent where
  | msg (partition : Nat) (offset : Int)
  | partitionEof (partition : Nat) (offset : Int)
deriving DecidableEq

/-- Consumer-side state: the run flag, the EOF coordinator state
(`part_eof` array and `part_eof_cnt`), the received-message counter
`stats.rx`, the ordered list of messages rendered via `fmt_msg_output`,
and the ordered list of `rd_kafka_offset_store` calls. -/
structure CState where
  run : Bool
  eof : List Bool
  eofCnt : Nat
  rx : Nat
  rendered : List (Nat × Int)
  stored : List (Nat × Int)
deriving DecidableEq

/-- Initial consumer state for `n` partitions: run flag set, coordinator
zeroed, no messages received. -/
def initCState (n : Nat) : CState :=
  { run := true, eof := List.replicate n false, eofCnt := 0
    rx := 0, rendered := [], stored := [] }

/-- consume_cb (lines 356-407): return immediately when the run flag is
cleared.  For a partition-EOF marker: store the resumable offset (the
offset before the marker, or 0 for an empty partition), then, when
exit-at-EOF is on and the partition is not yet observed, stop and mark it,
bump `part_eof_cnt`, and clear the run flag when the count reaches the
threshold.  For a regular message: render it, store its offset, bump
`stats.rx`, and clear the run flag when `rx` reaches the message-count
limit. -/
def consume_cb (cc : CConf) (s : CState) (e : KEvent) : CState :=
  if s.run = false then s
  else
    match e with
    | KEvent.partitionEof p off =>
        let s1 : CState :=
          { s with stored := s.stored ++ [(p, if off = 0 then 0 else off - 1)] }
        if cc.exitEof then
          if s1.eof.getD p false then s1
          else
            let cnt := s1.eofCnt + 1
            { s1 with eof := s1.eof.set p true, eofCnt := cnt
                      run := if cc.thres ≤ cnt then false else s1.run }
        else s1
    | KEvent.msg p off =>
        let s1 : CState :=
          { s with rendered := s.rendered ++ [(p, off)]
                   stored := s.stored ++ [(p, off)]
                   rx := s.rx + 1 }
        { s1 with run := if s1.rx = cc.msgCnt then false else s1.run }

/-- The consume loop over the event sequence delivered by the shared
queue (consumer_run lines 512-519: the queue hands each event to
`consume_cb` in order while the loop runs, and `consume_cb` itself drops
events once the run flag is cleared). -/
def consumeRun (cc : CConf) (s0 : CState) (evs : List KEvent) : CState :=
  evs.foldl (consume_cb cc) s0

/-- The regular (non-EOF) messages of an event sequence, in order. -/
def msgsOf : List KEvent → List (Nat × Int)
  | [] => []
  | KEvent.msg p off :: rest => (p, off) :: msgsOf rest
  | KEvent.partitionEof _ _ :: rest => msgsOf rest

/-! # Theorems -/

/-! ## Helper lemmas on the per-record producer path -/

theorem sendRecord_nil (cf : ProdConf) : sendRecord cf [] = none := by
  simp [sendRecord]

theorem sendRecord_of_split (cf : ProdConf) (r a b : List Nat) (hne : r ≠ [])
    (hkd : cf.keyDelimOn = true) (hsf : splitFirst cf.keyDelim r = some (a, b)) :
    sendRecord cf r =
      some { value := if cf.nullFlag ∧ b = [] then none else some b
             key := if cf.nullFlag ∧ a = [] then none else some a
             copyFlag := true
             freeFlag := false } := by
  unfold sendRecord
  rw [if_neg hne]
  simp [hkd, hsf]

theorem sendRecord_no_split (cf : ProdConf) (r : List Nat) (hne : r ≠ [])
    (hnone : (if cf.keyDelimOn then splitFirst cf.keyDelim r else none) = none) :
    sendRecord cf r =
      if 1024 < r.length ∧ cf.tee = false then
        some { value := some r, key := none, copyFlag := false, freeFlag := true }
      else
        some { value := some r, key := none, copyFlag := true, freeFlag := false } := by
  unfold sendRecord
  rw [if_neg hne, hnone]

theorem splitFirst_append (k : Nat) (a b : List Nat) (ha : k ∉ a) :
    splitFirst k (a ++ k :: b) = some (a, b) := by
  induction a with
  | nil => simp [splitFirst]
  | cons x xs ih =>
    have hx : x ≠ k := by
      intro h
      exact ha (by rw [h]; exact List.mem_cons_self k xs)
    have hxs : k ∉ xs := fun hm => ha (List.mem_cons_of_mem _ hm)
    simp [splitFirst, hx, ih hxs]

theorem splitFirst_eq_none (k : Nat) (r : List Nat) (h : k ∉ r) :
    splitFirst k r = none := by
  induction r with
  | nil => rfl
  | cons x xs ih =>
    have hx : x ≠ k := by
      intro he
      exact h (by rw [he]; exact List.mem_cons_self k xs)
    have hxs : k ∉ xs := fun hm => h (List.mem_cons_of_mem _ hm)
    simp [splitFirst, hx, ih hxs]

theorem noSplit_scrutinee (cf : ProdConf) (r : List Nat)
    (hks : keySplitApplied cf r = false) :
    (if cf.keyDelimOn then splitFirst cf.keyDelim r else none) = none := by
  cases hkd : cf.keyDelimOn with
  | false => simp
  | true =>
    simp only [hkd, if_true]
    cases hsf : splitFirst cf.keyDelim r with
    | none => rfl
    | some ab =>
      exfalso
      unfold keySplitApplied at hks
      rw [hkd, hsf] at hks
      simp at hks

/-! ## C1: copy vs ownership-transfer decision -/

/-- C1: in stream produce mode, measured after the trailing delimiter is
stripped: a 1024-byte record with tee off goes on the copy path; a record
of 1025 bytes or more with tee off and no key split goes on the
ownership-transfer path and the read buffer is relinquished (`sbuf` is
reset so the next `getdelim` allocates afresh); any record with tee on,
and any key-split record, goes on the copy path (producer_run, lines
268-322). -/
theorem C1_ownership_policy (cf : ProdConf) (r : List Nat) :
    (r.length = 1024 → cf.tee = false → onCopyPath (sendRecord cf r) = true) ∧
    (1025 ≤ r.length → cf.tee = false → keySplitApplied cf r = false →
      onTransferPath (sendRecord cf r) = true ∧
      ∀ sbuf : List Nat, bufAfterSend (some sbuf) (sendRecord cf r) = none) ∧
    (r ≠ [] → cf.tee = true → onCopyPath (sendRecord cf r) = true) ∧
    (r ≠ [] → keySplitApplied cf r = true → onCopyPath (sendRecord cf r) = true) := by
  refine ⟨?_, ?_, ?_, ?_⟩
  · intro hlen htee
    have hne : r ≠ [] := by
      intro h; rw [h] at hlen; simp at hlen
    unfold sendRecord
    rw [if_neg hne]
    cases hs : (if cf.keyDelimOn then splitFirst cf.keyDelim r else none) with
    | some ab =>
      cases ab with
      | mk a b => simp [onCopyPath]
    | none =>
      have hnc : ¬ (1024 < r.length ∧ cf.tee = false) := by
        intro hc
        omega
      rw [if_neg hnc]
      simp [onCopyPath]
  · intro hlen htee hks
    have hne : r ≠ [] := by
      intro h; rw [h] at hlen; simp at hlen
    rw [sendRecord_no_split cf r hne (noSplit_scrutinee cf r hks)]
    have hc : 1024 < r.length ∧ cf.tee = false := ⟨by omega, htee⟩
    rw [if_pos hc]
    exact ⟨by simp [onTransferPath], fun sbuf => by simp [bufAfterSend]⟩
  · intro hne htee
    unfold sendRecord
    rw [if_neg hne]
    cases hs : (if cf.keyDelimOn then splitFirst cf.keyDelim r else none) with
    | some ab =>
      cases ab with
      | mk a b => simp [onCopyPath]
    | none =>
      have hnc : ¬ (1024 < r.length ∧ cf.tee = false) := by
        intro hc
        rw [htee] at hc
        exact Bool.noConfusion hc.2
      rw [if_neg hnc]
      simp [onCopyPath]
  · intro hne hks
    have hkd : cf.keyDelimOn = true := by
      cases h : cf.keyDelimOn with
      | true => rfl
      | false =>
        unfold keySplitApplied at hks
        rw [h] at hks
        simp at hks
    have hsome : (splitFirst cf.keyDelim r).isSome = true := by
      unfold keySplitApplied at hks
      rw [hkd] at hks
      simpa using hks
    cases hsf : splitFirst cf.keyDelim r with
    | none => rw [hsf] at hsome; simp at hsome
    | some ab =>
      cases ab with
      | mk a b =>
        rw [sendRecord_of_split cf r a b hne hkd hsf]
        simp [onCopyPath]

/-- C1 witness: a 1024-byte record (tee off) is copied; a 1025-byte record
(tee off, no key delimiter) is transferred and relinquishes the buffer; a
one-byte record with tee on is copied; a key-split record is copied. -/
theorem C1_witness :
    onCopyPath (sendRecord ⟨10, false, 0, false, false⟩
      (List.replicate 1024 97)) = true ∧
    (onTransferPath (sendRecord ⟨10, false, 0, false, false⟩
      (List.replicate 1025 97)) = true ∧
     ∀ sbuf : List Nat, bufAfterSend (some sbuf)
       (sendRecord ⟨10, false, 0, false, false⟩ (List.replicate 1025 97)) = none) ∧
    onCopyPath (sendRecord ⟨10, false, 0, false, true⟩ [97]) = true ∧
    onCopyPath (sendRecord ⟨10, true, 61, false, false⟩ [107, 61, 118]) = true := by
  refine ⟨?_, ?_, ?_, ?_⟩
  · exact (C1_ownership_policy ⟨10, false, 0, false, false⟩
      (List.replicate 1024 97)).1 (by rw [List.length_replicate]) rfl
  · exact (C1_ownership_policy ⟨10, false, 0, false, false⟩
      (List.replicate 1025 97)).2.1
      (by simp only [List.length_replicate]; omega) rfl rfl
  · exact (C1_ownership_policy ⟨10, false, 0, false, true⟩ [97]).2.2.1
      (by simp) rfl
  · exact (C1_ownership_policy ⟨10, true, 61, false, false⟩ [107, 61, 118]).2.2.2
      (by simp) (by decide)

/-! ## C3: key extraction grammar -/

/-- C3: with a key delimiter K configured, a record containing K splits at
the first occurrence of K: the bytes strictly before it become the key and
the bytes strictly after it become the value (stated with the `-Z` null
flag off, whose empty-half-to-NULL rewrite is settled separately); a
record not containing K is sent with an absent key and the whole record as
the value, whatever the flags (producer_run, lines 267-290). -/
theorem C3_key_extraction (cf : ProdConf) :
    (∀ a b : List Nat, cf.keyDelimOn = true → cf.nullFlag = false →
      cf.keyDelim ∉ a →
      ∃ m : OutMsg, sendRecord cf (a ++ cf.keyDelim :: b) = some m ∧
        m.key = some a ∧ m.value = some b) ∧
    (∀ r : List Nat, r ≠ [] → cf.keyDelimOn = true → cf.keyDelim ∉ r →
      ∃ m : OutMsg, sendRecord cf r = some m ∧
        m.key = none ∧ m.value = some r) := by
  constructor
  · intro a b hkd hnull ha
    have hne : a ++ cf.keyDelim :: b ≠ [] := by simp
    rw [sendRecord_of_split cf (a ++ cf.keyDelim :: b) a b hne hkd
      (splitFirst_append cf.keyDelim a b ha)]
    refine ⟨_, rfl, ?_, ?_⟩ <;> simp [hnull]
  · intro r hne hkd hr
    have hnone : (if cf.keyDelimOn then splitFirst cf.keyDelim r else none)
        = none := by
      rw [if_pos hkd, splitFirst_eq_none cf.keyDelim r hr]
    rw [sendRecord_no_split cf r hne hnone]
    by_cases hc : 1024 < r.length ∧ cf.tee = false
    · rw [if_pos hc]
      exact ⟨_, rfl, rfl, rfl⟩
    · rw [if_neg hc]
      exact ⟨_, rfl, rfl, rfl⟩

/-- C3 witness: record "key=value" (bytes 107 101 121 / 61 / 118 97 108)
with key delimiter 61 yields key "key" and value "value"; record "xy" with
no 61 inside yields an absent key and the whole record as value. -/
theorem C3_witness :
    (∃ m : OutMsg, sendRecord ⟨10, true, 61, false, false⟩
        ([107, 101, 121] ++ (61 : Nat) :: [118, 97, 108]) = some m ∧
        m.key = some [107, 101, 121] ∧ m.value = some [118, 97, 108]) ∧
    (∃ m : OutMsg, sendRecord ⟨10, true, 61, false, false⟩ [120, 121] = some m ∧
        m.key = none ∧ m.value = some [120, 121]) :=
  ⟨(C3_key_extraction ⟨10, true, 61, false, false⟩).1 [107, 101, 121]
      [118, 97, 108] rfl rfl (by decide),
   (C3_key_extraction ⟨10, true, 61, false, false⟩).2 [120, 121]
      (by decide) rfl (by decide)⟩

/-! ## C10: scope of the -Z null-encoding flag -/

/-- C10: in stream produce mode the `-Z` null flag acts only inside a
key split: when the key delimiter is found, a zero-length key half or
value half becomes a NULL pointer; without a key split the record is sent
intact with an absent key no matter the flags; and a record that is empty
after delimiter stripping is always skipped — never sent as a null
message — even with `-Z` set (producer_run, lines 249-290). -/
theorem C10_null_flag_scope (cf : ProdConf) :
    (∀ chunk : List Nat, stripDelim cf.delim chunk = [] →
      processRecord cf chunk = none) ∧
    (∀ r : List Nat, r ≠ [] → keySplitApplied cf r = false →
      ∃ m : OutMsg, sendRecord cf r = some m ∧
        m.value = some r ∧ m.key = none) ∧
    (∀ a b : List Nat, cf.keyDelimOn = true → cf.nullFlag = true →
      cf.keyDelim ∉ a →
      ∃ m : OutMsg, sendRecord cf (a ++ cf.keyDelim :: b) = some m ∧
        m.key = (if a = [] then none else some a) ∧
        m.value = (if b = [] then none else some b)) := by
  refine ⟨?_, ?_, ?_⟩
  · intro chunk hstrip
    unfold processRecord
    by_cases hc : chunk = []
    · rw [if_pos hc]
    · rw [if_neg hc, hstrip]
      exact sendRecord_nil cf
  · intro r hne hks
    rw [sendRecord_no_split cf r hne (noSplit_scrutinee cf r hks)]
    by_cases hc : 1024 < r.length ∧ cf.tee = false
    · rw [if_pos hc]
      exact ⟨_, rfl, rfl, rfl⟩
    · rw [if_neg hc]
      exact ⟨_, rfl, rfl, rfl⟩
  · intro a b hkd hnull ha
    have hne : a ++ cf.keyDelim :: b ≠ [] := by simp
    rw [sendRecord_of_split cf (a ++ cf.keyDelim :: b) a b hne hkd
      (splitFirst_append cf.keyDelim a b ha)]
    refine ⟨_, rfl, ?_, ?_⟩
    · by_cases hae : a = [] <;> simp [hae, hnull]
    · by_cases hbe : b = [] <;> simp [hbe, hnull]

/-! ## Helper lemmas on the EOF coordinator -/

theorem eofRunFrom_nil (s : EofState) : eofRunFrom s [] = s := rfl

theorem eofRunFrom_cons (s : EofState) (p : Nat) (ps : List Nat) :
    eofRunFrom s (p :: ps) = eofRunFrom (eofStep s p) ps := rfl

theorem eofStep_length (s : EofState) (p : Nat) :
    (eofStep s p).eof.length = s.eof.length := by
  unfold eofStep
  split
  · rfl
  · simp [List.length_set]

theorem eofRunFrom_length (ps : List Nat) : ∀ s : EofState,
    (eofRunFrom s ps).eof.length = s.eof.length := by
  induction ps with
  | nil => intro s; rfl
  | cons p ps ih =>
    intro s
    rw [eofRunFrom_cons, ih (eofStep s p), eofStep_length]

theorem replicate_false_getD (n q : Nat) :
    (List.replicate n false).getD q false = false := by
  rcases Nat.lt_or_ge q n with h | h
  · rw [List.getD_eq_getElem?_getD, List.getElem?_replicate_of_lt h]
    rfl
  · rw [List.getD_eq_getElem?_getD, List.getElem?_eq_none (by simpa using h)]
    rfl

theorem getD_set_bool (l : List Bool) (p q : Nat) :
    ((l.set p true).getD q false = true) ↔
      (l.getD q false = true ∨ (q = p ∧ p < l.length)) := by
  rw [List.getD_eq_getElem?_getD, List.getElem?_set, List.getD_eq_getElem?_getD]
  by_cases hpq : p = q
  · subst hpq
    by_cases hl : p < l.length
    · simp [hl]
    · rw [List.getElem?_eq_none (Nat.le_of_not_lt hl)]
      simp [hl]
  · have hqp : ¬ q = p := fun h => hpq h.symm
    simp [hpq, hqp]

theorem eofStep_getD (s : EofState) (p q : Nat) :
    ((eofStep s p).eof.getD q false = true) ↔
      (s.eof.getD q false = true ∨ (q = p ∧ p < s.eof.length)) := by
  unfold eofStep
  by_cases ho : s.eof.getD p false = true
  · rw [if_pos ho]
    constructor
    · exact Or.inl
    · rintro (h | ⟨hq, _⟩)
      · exact h
      · rw [hq]
        exact ho
  · rw [if_neg ho]
    exact getD_set_bool s.eof p q

theorem eofStep_cnt_le (s : EofState) (p : Nat) : s.cnt ≤ (eofStep s p).cnt := by
  unfold eofStep
  split
  · exact le_refl _
  · exact Nat.le_succ _

theorem eofRunFrom_cnt_le (ps : List Nat) : ∀ s : EofState,
    s.cnt ≤ (eofRunFrom s ps).cnt := by
  induction ps with
  | nil => intro s; exact le_refl _
  | cons p ps ih =>
    intro s
    rw [eofRunFrom_cons]
    exact le_trans (eofStep_cnt_le s p) (ih (eofStep s p))

theorem eofStep_cnt_inv (s : EofState) (p : Nat) (hp : p < s.eof.length)
    (hinv : s.cnt = (observedSet s).card) :
    (eofStep s p).cnt = (observedSet (eofStep s p)).card := by
  by_cases ho : s.eof.getD p false = true
  · rw [show eofStep s p = s from by unfold eofStep; rw [if_pos ho]]
    exact hinv
  · have hnew : observedSet (eofStep s p) = insert p (observedSet s) := by
      ext q
      simp only [observedSet, Finset.mem_filter, Finset.mem_range,
        Finset.mem_insert, eofStep_length]
      rw [eofStep_getD]
      constructor
      · rintro ⟨hq, h | ⟨rfl, _⟩⟩
        · exact Or.inr ⟨hq, h⟩
        · exact Or.inl rfl
      · rintro (rfl | ⟨hq, h⟩)
        · exact ⟨hp, Or.inr ⟨rfl, hp⟩⟩
        · exact ⟨hq, Or.inl h⟩
    have hpnot : p ∉ observedSet s := by
      simp only [observedSet, Finset.mem_filter, Finset.mem_range]
      rintro ⟨_, h⟩
      exact ho h
    rw [hnew, Finset.card_insert_of_not_mem hpnot, ← hinv]
    unfold eofStep
    rw [if_neg ho]

theorem eofRunFrom_cnt_card (ps : List Nat) : ∀ s : EofState,
    (∀ p ∈ ps, p < s.eof.length) → s.cnt = (observedSet s).card →
    (eofRunFrom s ps).cnt = (observedSet (eofRunFrom s ps)).card := by
  induction ps with
  | nil => intro s _ h; exact h
  | cons p ps ih =>
    intro s hps hinv
    rw [eofRunFrom_cons]
    apply ih
    · intro q hq
      rw [eofStep_length]
      exact hps q (List.mem_cons_of_mem _ hq)
    · exact eofStep_cnt_inv s p (hps p (List.mem_cons_self _ _)) hinv

theorem eofRunFrom_getD (ps : List Nat) : ∀ (s : EofState) (q : Nat),
    ((eofRunFrom s ps).eof.getD q false = true ↔
      s.eof.getD q false = true ∨ (q ∈ ps ∧ q < s.eof.length)) := by
  induction ps with
  | nil => intro s q; simp [eofRunFrom_nil]
  | cons p ps ih =>
    intro s q
    rw [eofRunFrom_cons, ih (eofStep s p) q, eofStep_getD, eofStep_length]
    constructor
    · rintro ((h | ⟨rfl, hp⟩) | ⟨hq, hlt⟩)
      · exact Or.inl h
      · exact Or.inr ⟨List.mem_cons_self _ _, hp⟩
      · exact Or.inr ⟨List.mem_cons_of_mem _ hq, hlt⟩
    · rintro (h | ⟨hq, hlt⟩)
      · exact Or.inl (Or.inl h)
      · rcases List.mem_cons.mp hq with rfl | hq2
        · exact Or.inl (Or.inr ⟨rfl, hlt⟩)
        · exact Or.inr ⟨hq2, hlt⟩

theorem observedSet_eofRun (n : Nat) (ps : List Nat) (hps : ∀ p ∈ ps, p < n) :
    observedSet (eofRun n ps) = ps.toFinset := by
  ext q
  simp only [observedSet, eofRun, Finset.mem_filter, Finset.mem_range,
    List.mem_toFinset]
  rw [eofRunFrom_getD, eofRunFrom_length]
  simp only [eofInit, List.length_replicate, replicate_false_getD]
  constructor
  · rintro ⟨hq, h | ⟨hmem, _⟩⟩
    · exact absurd h (by simp)
    · exact hmem
  · intro hmem
    exact ⟨hps q hmem, Or.inr ⟨hmem, hps q hmem⟩⟩

/-! ## C4: EOF observed-count invariants -/

/-- C4: for every sequence of partition-EOF notifications delivered to the
coordinator (each naming a valid partition below the partition count `n`),
the global `part_eof_cnt` equals the number of distinct partitions
notified; the count is monotone along the sequence; it never exceeds the
partition count; and a repeated notification for an already-observed
partition changes nothing (consume_cb, lines 362-390). -/
theorem C4_eof_count (n : Nat) (ps : List Nat) (hps : ∀ p ∈ ps, p < n) :
    (eofRun n ps).cnt = ps.toFinset.card ∧
    (∀ qs rs : List Nat, ps = qs ++ rs → (eofRun n qs).cnt ≤ (eofRun n ps).cnt) ∧
    (eofRun n ps).cnt ≤ n ∧
    (∀ p ∈ ps, eofStep (eofRun n ps) p = eofRun n ps) := by
  have hinit : observedSet (eofInit n) = ∅ := by
    ext q
    simp [observedSet, eofInit, replicate_false_getD]
  have hlen : ∀ p ∈ ps, p < (eofInit n).eof.length := by
    intro p hp
    simpa [eofInit, List.length_replicate] using hps p hp
  have hcard : (eofRun n ps).cnt = ps.toFinset.card := by
    have h0 : (eofInit n).cnt = (observedSet (eofInit n)).card := by
      rw [hinit]
      rfl
    have h1 := eofRunFrom_cnt_card ps (eofInit n) hlen h0
    rw [eofRun, h1, ← eofRun, observedSet_eofRun n ps hps]
  refine ⟨hcard, ?_, ?_, ?_⟩
  · intro qs rs hsplit
    have heq : eofRun n ps = eofRunFrom (eofRun n qs) rs := by
      rw [hsplit]
      unfold eofRun eofRunFrom
      simp
    rw [heq]
    exact eofRunFrom_cnt_le rs (eofRun n qs)
  · rw [hcard]
    have hsub : ps.toFinset ⊆ Finset.range n := by
      intro q hq
      rw [List.mem_toFinset] at hq
      exact Finset.mem_range.mpr (hps q hq)
    calc ps.toFinset.card ≤ (Finset.range n).card := Finset.card_le_card hsub
      _ = n := Finset.card_range n
  · intro p hp
    have hobs : (eofRun n ps).eof.getD p false = true := by
      rw [eofRun, eofRunFrom_getD]
      exact Or.inr ⟨hp, hlen p hp⟩
    unfold eofStep
    rw [if_pos hobs]

/-- C4 witness: three partitions, notifications for partitions 0, 2, 0, 1:
the count is 3, was monotone, stays within bound, and repeats are
no-ops. -/
theorem C4_witness :
    (eofRun 3 [0, 2, 0, 1]).cnt = ([0, 2, 0, 1] : List Nat).toFinset.card ∧
    (∀ qs rs : List Nat, ([0, 2, 0, 1] : List Nat) = qs ++ rs →
      (eofRun 3 qs).cnt ≤ (eofRun 3 [0, 2, 0, 1]).cnt) ∧
    (eofRun 3 [0, 2, 0, 1]).cnt ≤ 3 ∧
    (∀ p ∈ ([0, 2, 0, 1] : List Nat),
      eofStep (eofRun 3 [0, 2, 0, 1]) p = eofRun 3 [0, 2, 0, 1]) :=
  C4_eof_count 3 [0, 2, 0, 1] (by decide)

/-- C10 witness: with `-Z` on and key delimiter 61, the empty chunk and
the bare-delimiter chunk are skipped; record "ab" (no split) is sent
intact; record "=" (delimiter only) is sent with NULL key and NULL
value. -/
theorem C10_witness :
    processRecord ⟨10, true, 61, true, false⟩ [10] = none ∧
    (∃ m : OutMsg, sendRecord ⟨10, true, 61, true, false⟩ [97, 98] = some m ∧
      m.value = some [97, 98] ∧ m.key = none) ∧
    (∃ m : OutMsg, sendRecord ⟨10, true, 61, true, false⟩
        (([] : List Nat) ++ (61 : Nat) :: ([] : List Nat)) = some m ∧
      m.key = (if ([] : List Nat) = [] then none else some []) ∧
      m.value = (if ([] : List Nat) = [] then none else some [])) :=
  ⟨(C10_null_flag_scope ⟨10, true, 61, true, false⟩).1 [10] (by decide),
   (C10_null_flag_scope ⟨10, true, 61, true, false⟩).2.1 [97, 98]
      (by decide) (by decide),
   (C10_null_flag_scope ⟨10, true, 61, true, false⟩).2.2 [] [] rfl rfl
      (by decide)⟩

/-! ## C2: framing round-trip -/

theorem getdelimChunks_flatten (d : Nat) (input : List Nat) :
    (getdelimChunks d input).flatten = input := by
  induction input with
  | nil => rfl
  | cons x xs ih =>
    by_cases hx : x = d
    · simp [getdelimChunks, hx, List.flatten] at ih ⊢
      exact ih
    · simp only [getdelimChunks, hx, if_false]
      cases hc : getdelimChunks d xs with
      | nil => simp [hc, List.flatten] at ih ⊢; exact ih
      | cons c cs =>
        rw [hc] at ih
        simp [List.flatten] at ih ⊢
        exact ih

theorem strip_append_chunkDelim (d : Nat) (c : List Nat) :
    stripDelim d c ++ chunkDelim d c = c := by
  unfold stripDelim chunkDelim
  by_cases h : c.getLast? = some d
  · simp only [h, if_pos rfl]
    cases c with
    | nil => simp at h
    | cons a as =>
      have hne : (a :: as) ≠ [] := by simp
      have := List.dropLast_append_getLast hne
      rw [List.getLast?_eq_getLast (a :: as) hne] at h
      have hlast : (a :: as).getLast hne = d := by
        injection h
      rw [← hlast]
      exact this
  · simp [h]

/-- C2: in stream produce mode without a key delimiter, re-attaching each
framed record's original delimiter byte (the byte `stripDelim` removed;
empty for a final unterminated chunk) and concatenating in order
reproduces the input byte stream exactly: framing loses no bytes and
reorders nothing (producer_run, lines 249-265). -/
theorem C2_framing_roundtrip (d : Nat) (input : List Nat) :
    ((getdelimChunks d input).map
      (fun c => stripDelim d c ++ chunkDelim d c)).flatten = input := by
  have hfun : (fun c : List Nat => stripDelim d c ++ chunkDelim d c) =
      fun c => c := funext (strip_append_chunkDelim d)
  rw [hfun, List.map_id']
  exact getdelimChunks_flatten d input

/-! ## Helper lemmas on the consume callback -/

theorem consumeRun_nil (cc : CConf) (s : CState) : consumeRun cc s [] = s := rfl

theorem consumeRun_cons (cc : CConf) (s : CState) (e : KEvent) (evs : List KEvent) :
    consumeRun cc s (e :: evs) = consumeRun cc (consume_cb cc s e) evs := rfl

theorem consume_cb_stopped (cc : CConf) (s : CState) (e : KEvent)
    (h : s.run = false) : consume_cb cc s e = s := by
  unfold consume_cb
  rw [if_pos h]

theorem consumeRun_stopped (cc : CConf) (evs : List KEvent) : ∀ s : CState,
    s.run = false → consumeRun cc s evs = s := by
  induction evs with
  | nil => intro s _; rfl
  | cons e evs ih =>
    intro s h
    rw [consumeRun_cons, consume_cb_stopped cc s e h]
    exact ih s h

theorem consume_cb_msg (cc : CConf) (s : CState) (p : Nat) (off : Int)
    (h : s.run = true) :
    consume_cb cc s (KEvent.msg p off) =
      { run := if s.rx + 1 = cc.msgCnt then false else true
        eof := s.eof, eofCnt := s.eofCnt, rx := s.rx + 1
        rendered := s.rendered ++ [(p, off)]
        stored := s.stored ++ [(p, off)] } := by
  unfold consume_cb
  rw [h]
  simp

theorem consume_cb_eof_noexit (cc : CConf) (s : CState) (p : Nat) (off : Int)
    (h : s.run = true) (hee : cc.exitEof = false) :
    consume_cb cc s (KEvent.partitionEof p off) =
      { s with stored := s.stored ++ [(p, if off = 0 then 0 else off - 1)] } := by
  unfold consume_cb
  rw [h, hee]
  simp

theorem consume_cb_eof_seen (cc : CConf) (s : CState) (p : Nat) (off : Int)
    (h : s.run = true) (hee : cc.exitEof = true)
    (hobs : s.eof.getD p false = true) :
    consume_cb cc s (KEvent.partitionEof p off) =
      { s with stored := s.stored ++ [(p, if off = 0 then 0 else off - 1)] } := by
  unfold consume_cb
  rw [List.getD_eq_getElem?_getD] at hobs
  rw [h, hee]
  simp [hobs]

theorem consume_cb_eof_new (cc : CConf) (s : CState) (p : Nat) (off : Int)
    (h : s.run = true) (hee : cc.exitEof = true)
    (hobs : s.eof.getD p false = false) :
    consume_cb cc s (KEvent.partitionEof p off) =
      { run := if cc.thres ≤ s.eofCnt + 1 then false else true
        eof := s.eof.set p true, eofCnt := s.eofCnt + 1, rx := s.rx
        rendered := s.rendered
        stored := s.stored ++ [(p, if off = 0 then 0 else off - 1)] } := by
  unfold consume_cb
  rw [List.getD_eq_getElem?_getD] at hobs
  rw [h, hee]
  simp [hobs]

theorem consume_cb_run_iff (cc : CConf) (s : CState) (e : KEvent)
    (hee : cc.exitEof = true) (hmc : cc.msgCnt = 0)
    (hinv : s.run = false ↔ cc.thres ≤ s.eofCnt) :
    ((consume_cb cc s e).run = false ↔ cc.thres ≤ (consume_cb cc s e).eofCnt) := by
  by_cases hrun : s.run = true
  · cases e with
    | msg p off =>
      rw [consume_cb_msg cc s p off hrun]
      have hne : ¬ (s.rx + 1 = cc.msgCnt) := by
        rw [hmc]
        omega
      rw [if_neg hne]
      have hnot : ¬ cc.thres ≤ s.eofCnt := by
        intro hle
        have hh := hinv.mpr hle
        rw [hrun] at hh
        exact Bool.noConfusion hh
      simp [hnot]
    | partitionEof p off =>
      by_cases hobs : s.eof.getD p false = true
      · rw [consume_cb_eof_seen cc s p off hrun hee hobs]
        simpa using hinv
      · have hobs2 : s.eof.getD p false = false := by
          cases hb : s.eof.getD p false
          · rfl
          · exact absurd hb hobs
        rw [consume_cb_eof_new cc s p off hrun hee hobs2]
        by_cases hth : cc.thres ≤ s.eofCnt + 1
        · simp [hth]
        · simp [hth]
  · have hf : s.run = false := by
      cases hr : s.run
      · rfl
      · exact absurd hr hrun
    rw [consume_cb_stopped cc s e hf]
    exact hinv

theorem consumeRun_run_iff (cc : CConf) (evs : List KEvent) : ∀ s : CState,
    cc.exitEof = true → cc.msgCnt = 0 →
    (s.run = false ↔ cc.thres ≤ s.eofCnt) →
    ((consumeRun cc s evs).run = false ↔
      cc.thres ≤ (consumeRun cc s evs).eofCnt) := by
  induction evs with
  | nil => intro s _ _ h; exact h
  | cons e evs ih =>
    intro s hee hmc hinv
    rw [consumeRun_cons]
    exact ih (consume_cb cc s e) hee hmc (consume_cb_run_iff cc s e hee hmc hinv)

/-! ## C5: exit-at-EOF threshold and loop stop -/

/-- C5: with exit-at-EOF enabled, the threshold is 1 when an explicit
partition was requested and the topic's full partition count otherwise
(consumer_run, lines 466-476); and over any delivered event sequence
(without a message-count limit) the consume loop's run flag is cleared
exactly when the EOF observed-count reaches that threshold, whatever the
arrival order (consume_cb, lines 371-380). -/
theorem C5_exit_eof_threshold :
    (∀ (confPartition : Int) (n : Nat),
      (confPartition ≠ RD_KAFKA_PARTITION_UA → eofThreshold confPartition n = 1) ∧
      (confPartition = RD_KAFKA_PARTITION_UA → eofThreshold confPartition n = n)) ∧
    (∀ (cc : CConf) (n : Nat) (evs : List KEvent),
      cc.exitEof = true → cc.msgCnt = 0 → 1 ≤ cc.thres →
      ((consumeRun cc (initCState n) evs).run = false ↔
        cc.thres ≤ (consumeRun cc (initCState n) evs).eofCnt)) := by
  constructor
  · intro cp n
    constructor
    · intro h
      unfold eofThreshold
      rw [if_pos h]
    · intro h
      unfold eofThreshold
      rw [if_neg (fun hn => hn h)]
  · intro cc n evs hee hmc hth
    apply consumeRun_run_iff cc evs (initCState n) hee hmc
    constructor
    · intro h
      exact absurd h (by simp [initCState])
    · intro hle
      exfalso
      have h0 : cc.thres ≤ 0 := by simpa [initCState] using hle
      omega

/-- C5 witness: requesting partition 2 of a 5-partition topic gives
threshold 1; no partition filter on a 3-partition topic gives threshold 3;
with threshold 3 the run flag after EOFs on partitions 0, 1 (twice) and 2
is cleared exactly when the count reached 3. -/
theorem C5_witness :
    eofThreshold 2 5 = 1 ∧
    eofThreshold RD_KAFKA_PARTITION_UA 3 = 3 ∧
    ((consumeRun ⟨true, 0, 3⟩ (initCState 3)
        [KEvent.partitionEof 0 4, KEvent.partitionEof 1 2,
         KEvent.partitionEof 1 3, KEvent.partitionEof 2 7]).run = false ↔
      3 ≤ (consumeRun ⟨true, 0, 3⟩ (initCState 3)
        [KEvent.partitionEof 0 4, KEvent.partitionEof 1 2,
         KEvent.partitionEof 1 3, KEvent.partitionEof 2 7]).eofCnt) :=
  ⟨(C5_exit_eof_threshold.1 2 5).1 (by decide),
   (C5_exit_eof_threshold.1 RD_KAFKA_PARTITION_UA 3).2 rfl,
   C5_exit_eof_threshold.2 ⟨true, 0, 3⟩ 3
     [KEvent.partitionEof 0 4, KEvent.partitionEof 1 2,
      KEvent.partitionEof 1 3, KEvent.partitionEof 2 7] rfl rfl (by decide)⟩

/-! ## C7: message-count limit -/

theorem consumeRun_under_limit (cc : CConf) (evs : List KEvent) : ∀ s : CState,
    s.run = true → cc.exitEof = false →
    s.rx + (msgsOf evs).length < cc.msgCnt →
    ((consumeRun cc s evs).run = true ∧
     (consumeRun cc s evs).rx = s.rx + (msgsOf evs).length ∧
     (consumeRun cc s evs).rendered = s.rendered ++ msgsOf evs) := by
  induction evs with
  | nil =>
    intro s h _ _
    exact ⟨h, by simp [consumeRun_nil, msgsOf], by simp [consumeRun_nil, msgsOf]⟩
  | cons e evs ih =>
    intro s hrun hee hlt
    cases e with
    | msg p off =>
      have hmsgs : msgsOf (KEvent.msg p off :: evs) = (p, off) :: msgsOf evs := rfl
      rw [hmsgs] at hlt ⊢
      rw [consumeRun_cons, consume_cb_msg cc s p off hrun]
      have hne : ¬ (s.rx + 1 = cc.msgCnt) := by
        simp only [List.length_cons] at hlt
        omega
      rw [if_neg hne]
      have hlt2 : ({ run := true, eof := s.eof, eofCnt := s.eofCnt, rx := s.rx + 1
                     rendered := s.rendered ++ [(p, off)]
                     stored := s.stored ++ [(p, off)] } : CState).rx
          + (msgsOf evs).length < cc.msgCnt := by
        simp only [List.length_cons] at hlt
        simp only []
        omega
      obtain ⟨h1, h2, h3⟩ := ih _ rfl hee hlt2
      refine ⟨h1, ?_, ?_⟩
      · rw [h2]
        simp only [List.length_cons]
        omega
      · rw [h3]
        simp

    | partitionEof p off =>
      have hmsgs : msgsOf (KEvent.partitionEof p off :: evs) = msgsOf evs := rfl
      rw [hmsgs] at hlt ⊢
      rw [consumeRun_cons, consume_cb_eof_noexit cc s p off hrun hee]
      obtain ⟨h1, h2, h3⟩ :=
        ih { s with stored := s.stored ++ [(p, if off = 0 then 0 else off - 1)] }
          hrun hee hlt
      exact ⟨h1, h2, h3⟩

/-- C7: with a message-count limit N > 0 and exit-at-EOF off, the consume
loop renders and offset-stores exactly the first N regular messages: if
`pre` holds N-1 regular messages (EOF markers in between do not count),
the N-th regular message clears the run flag, the final rendered list is
exactly those N messages in order, and the whole state equals the state
just after the N-th message — every later queued event, including ones in
the same poll batch, is neither rendered nor offset-stored (consume_cb
lines 356-407, consumer_run lines 512-519). -/
theorem C7_msg_count_limit (cc : CConf) (n N : Nat) (pre post : List KEvent)
    (p : Nat) (off : Int)
    (hee : cc.exitEof = false) (hN : cc.msgCnt = N) (hpos : 0 < N)
    (hpre : (msgsOf pre).length = N - 1) :
    (consumeRun cc (initCState n) (pre ++ KEvent.msg p off :: post)).run = false ∧
    (consumeRun cc (initCState n) (pre ++ KEvent.msg p off :: post)).rx = N ∧
    (consumeRun cc (initCState n) (pre ++ KEvent.msg p off :: post)).rendered
      = msgsOf pre ++ [(p, off)] ∧
    consumeRun cc (initCState n) (pre ++ KEvent.msg p off :: post)
      = consumeRun cc (initCState n) (pre ++ [KEvent.msg p off]) := by
  have hsplit : ∀ tail : List KEvent,
      consumeRun cc (initCState n) (pre ++ tail) =
        consumeRun cc (consumeRun cc (initCState n) pre) tail := by
    intro tail
    unfold consumeRun
    simp
  have hpre0 : (initCState n).rx + (msgsOf pre).length < cc.msgCnt := by
    simp only [initCState, hpre, hN]
    omega
  obtain ⟨hrun1, hrx1, hrend1⟩ :=
    consumeRun_under_limit cc pre (initCState n) rfl hee hpre0
  have hrxP : (consumeRun cc (initCState n) pre).rx = N - 1 := by
    rw [hrx1]
    simp [initCState, hpre]
  have hcond : (consumeRun cc (initCState n) pre).rx + 1 = cc.msgCnt := by
    rw [hrxP, hN]
    omega
  have hM := consume_cb_msg cc (consumeRun cc (initCState n) pre) p off hrun1
  rw [if_pos hcond] at hM
  have hfin : consumeRun cc (initCState n) (pre ++ KEvent.msg p off :: post)
      = consume_cb cc (consumeRun cc (initCState n) pre) (KEvent.msg p off) := by
    rw [hsplit (KEvent.msg p off :: post), consumeRun_cons]
    apply consumeRun_stopped
    rw [hM]
  have hfin2 : consumeRun cc (initCState n) (pre ++ [KEvent.msg p off])
      = consume_cb cc (consumeRun cc (initCState n) pre) (KEvent.msg p off) := by
    rw [hsplit [KEvent.msg p off], consumeRun_cons, consumeRun_nil]
  refine ⟨?_, ?_, ?_, ?_⟩
  · rw [hfin, hM]
  · rw [hfin, hM]
    show (consumeRun cc (initCState n) pre).rx + 1 = N
    rw [hrxP]
    omega
  · rw [hfin, hM]
    show (consumeRun cc (initCState n) pre).rendered ++ [(p, off)]
      = msgsOf pre ++ [(p, off)]
    rw [hrend1]
    simp [initCState]
  · rw [hfin, hfin2]

/-- C7 witness: limit 2 on a 1-partition topic; after one message, one EOF
marker and the second message, the loop has stopped with exactly the two
messages rendered, and a third already-queued message changes nothing. -/
theorem C7_witness :
    (consumeRun ⟨false, 2, 0⟩ (initCState 1)
      ([KEvent.msg 0 1, KEvent.partitionEof 0 5] ++
        KEvent.msg 0 7 :: [KEvent.msg 0 9])).run = false ∧
    (consumeRun ⟨false, 2, 0⟩ (initCState 1)
      ([KEvent.msg 0 1, KEvent.partitionEof 0 5] ++
        KEvent.msg 0 7 :: [KEvent.msg 0 9])).rx = 2 ∧
    (consumeRun ⟨false, 2, 0⟩ (initCState 1)
      ([KEvent.msg 0 1, KEvent.partitionEof 0 5] ++
        KEvent.msg 0 7 :: [KEvent.msg 0 9])).rendered
      = msgsOf [KEvent.msg 0 1, KEvent.partitionEof 0 5] ++ [(0, 7)] ∧
    consumeRun ⟨false, 2, 0⟩ (initCState 1)
      ([KEvent.msg 0 1, KEvent.partitionEof 0 5] ++
        KEvent.msg 0 7 :: [KEvent.msg 0 9])
      = consumeRun ⟨false, 2, 0⟩ (initCState 1)
        ([KEvent.msg 0 1, KEvent.partitionEof 0 5] ++ [KEvent.msg 0 7]) :=
  C7_msg_count_limit ⟨false, 2, 0⟩ 1 2
    [KEvent.msg 0 1, KEvent.partitionEof 0 5] [KEvent.msg 0 9] 0 7
    rfl rfl (by decide) (by decide)

/-! ## C6: the send retry loop -/

theorem produceLoop_qf (pre : List (Bool × SendAttempt))
    (hpre : ∀ it ∈ pre, it = (true, SendAttempt.queueFull)) :
    ∀ (tail : List (Bool × SendAttempt)) (k : Nat),
      produceLoop (pre ++ tail) k = produceLoop tail (k + pre.length) := by
  induction pre with
  | nil => intro tail k; rfl
  | cons it pre ih =>
    intro tail k
    have hit : it = (true, SendAttempt.queueFull) :=
      hpre it (List.mem_cons_self _ _)
    subst hit
    have h1 : produceLoop (((true, SendAttempt.queueFull) :: pre) ++ tail) k
        = produceLoop (pre ++ tail) (k + 1) := rfl
    rw [h1, ih (fun x hx => hpre x (List.mem_cons_of_mem _ hx)) tail (k + 1)]
    congr 1
    simp only [List.length_cons]
    omega

theorem produceLoop_all_qf (l : List (Bool × SendAttempt))
    (hl : ∀ it ∈ l, it = (true, SendAttempt.queueFull)) :
    ∀ k : Nat, produceLoop l k = none := by
  induction l with
  | nil => intro k; rfl
  | cons it l ih =>
    intro k
    have hit : it = (true, SendAttempt.queueFull) :=
      hl it (List.mem_cons_self _ _)
    subst hit
    have h1 : produceLoop ((true, SendAttempt.queueFull) :: l) k
        = produceLoop l (k + 1) := rfl
    rw [h1]
    exact ih (fun x hx => hl x (List.mem_cons_of_mem _ hx)) (k + 1)

theorem produceLoop_sent_mem (l : List (Bool × SendAttempt)) :
    ∀ k k2 : Nat, produceLoop l k = some (SendOutcome.sent, k2) →
      (true, SendAttempt.accepted) ∈ l := by
  induction l with
  | nil =>
    intro k k2 h
    exact absurd h (by simp [produceLoop])
  | cons it l ih =>
    intro k k2 h
    cases it with
    | mk run a =>
      cases run with
      | false =>
        have h1 : produceLoop ((false, a) :: l) k
            = some (SendOutcome.terminatedDuringRetry, k) := rfl
        rw [h1] at h
        simp at h
      | true =>
        cases a with
        | accepted => exact List.mem_cons_self _ _
        | queueFull =>
          have h1 : produceLoop ((true, SendAttempt.queueFull) :: l) k
              = produceLoop l (k + 1) := rfl
          rw [h1] at h
          exact List.mem_cons_of_mem _ (ih (k + 1) k2 h)
        | fatalErr =>
          have h1 : produceLoop ((true, SendAttempt.fatalErr) :: l) k
              = some (SendOutcome.fatalProduceError, k) := rfl
          rw [h1] at h
          simp at h

/-- C6: the send loop for one record, after any stretch of queue-full
attempts (each with its bounded 5 ms drain): if the run flag is observed
cleared at the next iteration the process terminates with an error; if the
next attempt is accepted the call returns normally; on any other produce
error the process terminates immediately; retrying is unbounded (a trace
of only queue-full attempts decides nothing); and a normal return happens
only after some attempt was accepted (produce, lines 121-154). -/
theorem C6_send_retry_policy (pre rest : List (Bool × SendAttempt))
    (x : Bool × SendAttempt)
    (hpre : ∀ it ∈ pre, it = (true, SendAttempt.queueFull)) :
    (x.1 = false → produceLoop (pre ++ x :: rest) 0
        = some (SendOutcome.terminatedDuringRetry, pre.length)) ∧
    (x = (true, SendAttempt.accepted) → produceLoop (pre ++ x :: rest) 0
        = some (SendOutcome.sent, pre.length)) ∧
    (x = (true, SendAttempt.fatalErr) → produceLoop (pre ++ x :: rest) 0
        = some (SendOutcome.fatalProduceError, pre.length)) ∧
    (∀ l : List (Bool × SendAttempt),
      (∀ it ∈ l, it = (true, SendAttempt.queueFull)) →
        produceLoop l 0 = none) ∧
    (∀ (l : List (Bool × SendAttempt)) (k : Nat),
      produceLoop l 0 = some (SendOutcome.sent, k) →
        (true, SendAttempt.accepted) ∈ l) := by
  refine ⟨?_, ?_, ?_, ?_, ?_⟩
  · intro hx
    rw [produceLoop_qf pre hpre (x :: rest) 0]
    cases x with
    | mk run a =>
      have hr : run = false := hx
      subst hr
      have h1 : produceLoop ((false, a) :: rest) (0 + pre.length)
          = some (SendOutcome.terminatedDuringRetry, 0 + pre.length) := rfl
      rw [h1]
      simp
  · intro hx
    subst hx
    rw [produceLoop_qf pre hpre _ 0]
    have h1 : produceLoop ((true, SendAttempt.accepted) :: rest) (0 + pre.length)
        = some (SendOutcome.sent, 0 + pre.length) := rfl
    rw [h1]
    simp
  · intro hx
    subst hx
    rw [produceLoop_qf pre hpre _ 0]
    have h1 : produceLoop ((true, SendAttempt.fatalErr) :: rest) (0 + pre.length)
        = some (SendOutcome.fatalProduceError, 0 + pre.length) := rfl
    rw [h1]
    simp
  · intro l hl
    exact produceLoop_all_qf l hl 0
  · intro l k h
    exact produceLoop_sent_mem l 0 k h

/-- C6 witness: two queue-full attempts followed by an accepted attempt
return normally after exactly two bounded retries. -/
theorem C6_witness :
    produceLoop ([(true, SendAttempt.queueFull), (true, SendAttempt.queueFull)]
      ++ (true, SendAttempt.accepted) :: []) 0
      = some (SendOutcome.sent,
          ([(true, SendAttempt.queueFull),
            (true, SendAttempt.queueFull)] : List (Bool × SendAttempt)).length) :=
  (C6_send_retry_policy
    [(true, SendAttempt.queueFull), (true, SendAttempt.queueFull)] []
    (true, SendAttempt.accepted) (by decide)).2.1 rfl

/-! ## C8: batch-file exit code (corrected) -/

/-- C8 counterexample: a run over two files of which exactly one fails to
read (some but not all) leaves the exit code at 0 — not 1 as claimed: the
code sets `exitcode = 1` only when no file succeeded and merely logs a
partial failure (producer_run, lines 241-245). -/
theorem C8_counterexample :
    producerExitcode [FileOutcome.readOk 5, FileOutcome.readFail] 0 0 = 0 ∧
    producerExitcode [FileOutcome.readOk 5, FileOutcome.readFail] 0 0 ≠ 1 := by
  constructor
  · rfl
  · decide

theorem goodCount_eq_zero_iff (files : List FileOutcome) :
    goodCount files = 0 ↔ ∀ f ∈ files, f = FileOutcome.readFail := by
  have hff : ∀ f : FileOutcome,
      (produce_file_ret f != -1) = false ↔ f = FileOutcome.readFail := by
    intro f
    cases f with
    | readOk n =>
      constructor
      · intro h
        exfalso
        simp [produce_file_ret] at h
      · intro h
        exact FileOutcome.noConfusion h
    | emptyFile =>
      constructor
      · intro h
        exfalso
        simp [produce_file_ret] at h
      · intro h
        exact FileOutcome.noConfusion h
    | readFail => simp [produce_file_ret]
  unfold goodCount
  rw [List.length_eq_zero, List.filter_eq_nil_iff]
  constructor
  · intro h f hf
    have hnot := h f hf
    have hb : (produce_file_ret f != -1) = false := by
      cases hb2 : (produce_file_ret f != -1) with
      | false => rfl
      | true => exact absurd hb2 hnot
    exact (hff f).mp hb
  · intro h f hf
    have hb := (hff f).mpr (h f hf)
    simp [hb]

/-- C8 amended: in batch-file produce mode the exit code is 1 exactly when
every listed file failed to read; when some but not all fail, the run
continues, the partial failure is only logged, and the exit code stays 0
absent queue or delivery errors (so full success also exits 0); any queue
or delivery-report error still forces exit code 1 (producer_run, lines
232-245 and 347-348). -/
theorem C8_amended_exit_codes (files : List FileOutcome) (_hne : files ≠ []) :
    (producerExitcode files 0 0 = 1 ↔ ∀ f ∈ files, f = FileOutcome.readFail) ∧
    ((∃ f ∈ files, f = FileOutcome.readFail) →
      (∃ f ∈ files, f ≠ FileOutcome.readFail) →
      producerExitcode files 0 0 = 0) ∧
    (∀ q d : Nat, q ≠ 0 ∨ d ≠ 0 → producerExitcode files q d = 1) := by
  refine ⟨?_, ?_, ?_⟩
  · unfold producerExitcode
    rw [if_neg (by simp)]
    by_cases hg : goodCount files = 0
    · rw [if_pos hg]
      exact ⟨fun _ => (goodCount_eq_zero_iff files).mp hg, fun _ => rfl⟩
    · rw [if_neg hg]
      constructor
      · intro h
        exact absurd h (by omega)
      · intro h
        exact absurd ((goodCount_eq_zero_iff files).mpr h) hg
  · intro _ hok
    unfold producerExitcode
    rw [if_neg (by simp)]
    have hg : goodCount files ≠ 0 := by
      intro hg0
      obtain ⟨f, hf, hfne⟩ := hok
      exact hfne ((goodCount_eq_zero_iff files).mp hg0 f hf)
    rw [if_neg hg]
  · intro q d hqd
    unfold producerExitcode
    rw [if_pos hqd]

/-- C8 amended witness: with one good and one failing file the exit code
is 0; with both failing it is 1; a delivery error forces 1. -/
theorem C8_amended_witness :
    (producerExitcode [FileOutcome.readOk 5, FileOutcome.readFail] 0 0 = 1 ↔
      ∀ f ∈ [FileOutcome.readOk 5, FileOutcome.readFail],
        f = FileOutcome.readFail) ∧
    ((∃ f ∈ [FileOutcome.readOk 5, FileOutcome.readFail],
        f = FileOutcome.readFail) →
      (∃ f ∈ [FileOutcome.readOk 5, FileOutcome.readFail],
        f ≠ FileOutcome.readFail) →
      producerExitcode [FileOutcome.readOk 5, FileOutcome.readFail] 0 0 = 0) ∧
    (∀ q d : Nat, q ≠ 0 ∨ d ≠ 0 →
      producerExitcode [FileOutcome.readOk 5, FileOutcome.readFail] q d = 1) :=
  C8_amended_exit_codes [FileOutcome.readOk 5, FileOutcome.readFail] (by decide)

/-! ## C9: delimiter parser on the empty specification (corrected) -/

/-- C9 counterexample: on the empty specification the delimiter parser
does not fail — it returns the byte value 0 (it falls through to reading
the first byte of the string, which is the NUL terminator); `parse_delim`
has no error result at all (lines 808-819). -/
theorem C9_counterexample : parse_delim [] = 0 := rfl

/-- C9 amended: the delimiter parser never fails: the empty specification
yields byte 0 (the NUL terminator read verbatim), and every specification
string yields a byte value below 256. -/
theorem C9_amended_total : parse_delim [] = 0 ∧
    ∀ s : List Char, parse_delim s < 256 := by
  constructor
  · rfl
  · intro s
    unfold parse_delim
    by_cases h1 : s.take 2 = ['\\', 'x']
    · rw [if_pos h1]
      exact Nat.mod_lt _ (by omega)
    · rw [if_neg h1]
      by_cases h2 : s = ['\\', 'n']
      · rw [if_pos h2]
        omega
      · rw [if_neg h2]
        by_cases h3 : s = ['\\', 't']
        · rw [if_pos h3]
          omega
        · rw [if_neg h3]
          exact Nat.mod_lt _ (by omega)

end Kafkacat
